import Mathlib

/-!
Verification of the nodemodules-cleaner repository.

The repository is a Tauri application whose UI layer lives in
`src/App.tsx`.  The scan/delete engine itself (the Rust side exposing the
`list_drives`, `start_scan_with_progress` and `delete_node_modules`
commands) is not part of the sources under verification, so the deletion
executor is modelled from the specification (§4.6) where needed; every
other definition below is a shallow embedding of the TypeScript code in
`src/App.tsx`.
-/

namespace NodeModulesCleaner

/-! ## Data model (interfaces declared at the top of App.tsx) -/

/-- `interface ScanItem` from App.tsx.  `size?: number | null` is modelled
as `Option Nat` (backend sizes are unsigned byte counts; `null` and
`undefined` both map to `none`). -/
structure ScanItem where
  project_path : String
  node_modules_path : String
  size : Option Nat
deriving DecidableEq, Repr

/-- `interface ScanProgress` from App.tsx. -/
structure ScanProgress where
  current_folder : String
  folders_scanned : Nat
  total_folders_estimated : Nat
  node_modules_found : Nat
  directories_skipped : Nat
  is_complete : Bool
deriving DecidableEq, Repr

/-- `interface DriveInfo` from App.tsx. -/
structure DriveInfo where
  path : String
  name : String
deriving DecidableEq, Repr

/-- `interface DeleteResult` from App.tsx. -/
structure DeleteResult where
  path : String
  success : Bool
  error : Option String
deriving DecidableEq, Repr

/-- The `type` field of `interface TreeNode`: `"folder" | "node_modules"`. -/
inductive NType where
  | folder
  | node_modules
deriving DecidableEq, Repr

mutual
/-- `interface TreeNode` from App.tsx.  `children: TreeNode[]` makes the
type recursive; the children array is represented by the mutually defined
`Forest` type (isomorphic to `List TreeNode`). -/
inductive TreeNode where
  | mk (id : String) (name : String) (path : String) (ntype : NType)
       (children : Forest) (size : Option Nat)
       (isExpanded : Bool) (isSelected : Bool) (level : Nat)

/-- The `TreeNode[]` arrays of App.tsx. -/
inductive Forest where
  | nil
  | cons (n : TreeNode) (f : Forest)
end

/-- `type ScanScope = "folder" | "drive" | "entire"` from App.tsx. -/
inductive ScanScope where
  | folder
  | drive
  | entire
deriving DecidableEq, Repr

def TreeNode.id : TreeNode → String
  | .mk i _ _ _ _ _ _ _ _ => i

def TreeNode.name : TreeNode → String
  | .mk _ nm _ _ _ _ _ _ _ => nm

def TreeNode.path : TreeNode → String
  | .mk _ _ p _ _ _ _ _ _ => p

def TreeNode.ntype : TreeNode → NType
  | .mk _ _ _ ty _ _ _ _ _ => ty

def TreeNode.children : TreeNode → Forest
  | .mk _ _ _ _ c _ _ _ _ => c

def TreeNode.size : TreeNode → Option Nat
  | .mk _ _ _ _ _ sz _ _ _ => sz

def TreeNode.isSelected : TreeNode → Bool
  | .mk _ _ _ _ _ _ _ sel _ => sel

def Forest.isNil : Forest → Bool
  | .nil => true
  | .cons _ _ => false

def Forest.append : Forest → Forest → Forest
  | .nil, g => g
  | .cons n f, g => .cons n (Forest.append f g)

mutual
/-- All nodes of a subtree, the node itself first (used to state
"for every node in the tree" properties). -/
def TreeNode.allNodes : TreeNode → List TreeNode
  | .mk i nm p ty c sz ex sel lv =>
    TreeNode.mk i nm p ty c sz ex sel lv :: Forest.allNodes c

def Forest.allNodes : Forest → List TreeNode
  | .nil => []
  | .cons n f => TreeNode.allNodes n ++ Forest.allNodes f
end

/-! ## React state of the `App` component

Each `useState` hook of the `App` component becomes one field.  Fields
exclusively about presentation (dark mode, modal visibility, the formatted
duration string) are carried too so that "no state is modified" claims are
about the whole component state.  `Date` values are modelled as `Nat`
timestamps. -/

structure AppState where
  scanScope : ScanScope
  selectedFolder : String
  selectedDrive : String
  drives : List DriveInfo
  includeSizes : Bool
  isScanning : Bool
  isDeleting : Bool
  scanProgress : ScanProgress
  scanResults : List ScanItem
  treeData : Forest
  selectedItems : List String
  scanStartTime : Option Nat

/-- The initial / reset progress literal that App.tsx uses both in
`useState` and in `handleStartScan`. -/
def startingProgress : ScanProgress :=
  { current_folder := "Starting scan..."
  , folders_scanned := 0
  , total_folders_estimated := 0
  , node_modules_found := 0
  , directories_skipped := 0
  , is_complete := false }

/-! ## handleStartScan

`handleStartScan` either returns without doing anything (guard clauses) or
mutates the scan state and invokes the `start_scan_with_progress` command.
The embedding returns the new component state together with
`some (roots, includeSizes)` when the command is invoked and `none` when
the request is rejected (the `alert` calls are presentation only).  The
returned state is the state directly after the synchronous `set*` calls
preceding the `invoke`; the later `setScanResults(results)` /
error-handler behaviour is outside every claim about this function. -/

def handleStartScan (s : AppState) (now : Nat) :
    AppState × Option (List String × Bool) :=
  if s.isScanning then (s, none)
  else
    -- the switch on scanScope computing `roots`, with the two
    -- early-return guards for an empty folder / no chosen drive
    let roots? : Option (List String) :=
      match s.scanScope with
      | .folder =>
        if s.selectedFolder.trim = "" then none
        else some [s.selectedFolder.trim]
      | .drive =>
        if s.selectedDrive = "" then none
        else some [s.selectedDrive]
      | .entire => some (s.drives.map (fun d => d.path))
    match roots? with
    | none => (s, none)
    | some roots =>
      if roots.length = 0 then (s, none)
      else
        ({ s with
            isScanning := true
          , scanStartTime := some now
          , scanResults := []
          , treeData := Forest.nil
          , selectedItems := []
          , scanProgress := startingProgress },
         some (roots, s.includeSizes))

/-! ## The scan_progress event listener

The body of the `listen("scan_progress", ...)` callback: it stores the
payload with `setScanProgress` and, when the completion flag is set,
leaves the scanning state with `setIsScanning(false)` (the delayed
`setScanStartTime(null)` runs 5 s later and is not part of the
synchronous handler). -/

def handleScanProgressEvent (s : AppState) (progress : ScanProgress) : AppState :=
  let s1 := { s with scanProgress := progress }
  if progress.is_complete then { s1 with isScanning := false } else s1

/-! ## confirmDelete: updating the results view after a deletion batch

The code after the `delete_node_modules` invocation in `confirmDelete`
(App.tsx lines 498–507): it computes the set of failed paths and filters
the previous scan results with it. -/

def applyDeleteResults (results : List DeleteResult) (prev : List ScanItem) :
    List ScanItem :=
  -- const failedPaths = new Set(results.filter(r => !r.success).map(r => r.path))
  let failedPaths := (results.filter (fun r => !r.success)).map (fun r => r.path)
  -- setScanResults(prev => prev.filter(item => !failedPaths.has(item.node_modules_path)))
  prev.filter (fun item => !(failedPaths.contains item.node_modules_path))

/-! ## Progress display (App.tsx lines 1102–1140)

The progress-bar width is
`Math.min((folders_scanned / Math.max(total_folders_estimated, 1)) * 100, 100)`
and the textual percentage is
`Math.round((folders_scanned / Math.max(total_folders_estimated, 1)) * 100)`
(no `Math.min` clamp on the text).  JS number arithmetic on these counter
values is modelled over `ℚ`; `Math.round x = ⌊x + 1/2⌋` for the
non-negative values occurring here. -/

def progressDivisor (total : Nat) : Nat := max total 1

def progressBarWidth (scanned total : Nat) : ℚ :=
  min ((scanned : ℚ) / (progressDivisor total : ℚ) * 100) 100

def progressPercentText (scanned total : Nat) : ℤ :=
  ⌊(scanned : ℚ) / (progressDivisor total : ℚ) * 100 + 1/2⌋

/-! ## Deletion executor, modelled from the spec

`delete_node_modules` is implemented on the Rust side of the Tauri
application, which is not among the sources; only its caller
(`confirmDelete`) is.  The executor is therefore modelled from the
specification §4.6. -/

/-- Splitting a character list at every `/` or `\` separator (the string
pieces between separators, empty pieces included), used both by the
spec-modelled `basename` and by the `project_path.split(/[\\\/]/)` call of
`buildTreeFromResults`. -/
def splitSepAux : List Char → List Char → List String
  | [], acc => [String.mk acc.reverse]
  | c :: cs, acc =>
    if c = '/' ∨ c = '\\' then String.mk acc.reverse :: splitSepAux cs []
    else splitSepAux cs (c :: acc)

def splitPath (s : String) : List String := splitSepAux s.data []

/-- Modelled from the spec: the platform `basename` used by the missing
deletion executor's validation step — the last non-empty path component
after splitting on `/` or `\`. -/
def pathBasename (p : String) : String :=
  ((splitPath p).filter (fun s => s ≠ "")).getLastD ""

/-- Modelled from the spec: the filesystem as seen by the missing deletion
executor — the set of existing directories and the trash facility. -/
structure FS where
  dirs : List String
  trash : List String
deriving DecidableEq, Repr

/-- Modelled from the spec: the missing `delete_node_modules` executor's
handling of one path (§4.6): (a) validate the basename is exactly
`node_modules`, (b) confirm the directory still exists, (c) move it to
trash; each failure yields `success := false` for that path only. -/
def deleteOnePath (fs : FS) (p : String) : DeleteResult × FS :=
  if pathBasename p = "node_modules" then
    if fs.dirs.contains p then
      ({ path := p, success := true, error := none },
       { dirs := fs.dirs.erase p, trash := fs.trash ++ [p] })
    else
      ({ path := p, success := false, error := some "path does not exist or is not a directory" }, fs)
  else
    ({ path := p, success := false, error := some "refusing to delete: basename is not node_modules" }, fs)

/-- Modelled from the spec: the missing `delete_node_modules` command —
each requested path is processed independently, one `DeleteResult` per
path, one failure never blocking the others. -/
def deleteNodeModules (fs : FS) : List String → List DeleteResult × FS
  | [] => ([], fs)
  | p :: ps =>
    let step := deleteOnePath fs p
    let rest := deleteNodeModules step.2 ps
    (step.1 :: rest.1, rest.2)

/-! ## formatFileSize (App.tsx lines 530–545)

JS number arithmetic is modelled over `ℚ`: the only arithmetic performed
is division by 1024, which is exact on IEEE doubles for the byte counts in
range, so `ℚ` is a faithful model.  `toFixed(1)` follows the ECMAScript
definition: the integer n minimising |n / 10 - x|, ties taking the larger
n — for the non-negative values here that is `⌊x * 10 + 1/2⌋`. -/

def sizeUnits : List String := ["B", "KB", "MB", "GB", "TB"]

/-- The `while (size >= 1024 && unitIndex < units.length - 1)` loop of
`formatFileSize`.  The guard `unitIndex < 4` bounds the iteration count by
4, so running the loop body through fuel 4 starting at `unitIndex = 0` is
exactly the while loop. -/
def sizeLoopFuel : Nat → ℚ → Nat → ℚ × Nat
  | 0, size, unitIndex => (size, unitIndex)
  | fuel + 1, size, unitIndex =>
    if 1024 ≤ size ∧ unitIndex < 4 then
      sizeLoopFuel fuel (size / 1024) (unitIndex + 1)
    else (size, unitIndex)

def sizeLoop (bytes : ℚ) : ℚ × Nat := sizeLoopFuel 4 bytes 0

/-- ECMAScript `x.toFixed(1)` for the non-negative exact values produced
by `sizeLoop`. -/
def jsToFixed1 (x : ℚ) : String :=
  let n : Nat := (⌊x * 10 + 1/2⌋).toNat
  Nat.repr (n / 10) ++ "." ++ Nat.repr (n % 10)

/-- `formatFileSize` from App.tsx: `null`/`undefined` yield the `"—"`
placeholder, otherwise the unit loop runs and the result is
``${size.toFixed(1)} ${units[unitIndex]}``. -/
def formatFileSize : Option ℚ → String
  | none => "—"
  | some bytes =>
    let r := sizeLoop bytes
    jsToFixed1 r.1 ++ " " ++ sizeUnits.getD r.2 ""

/-! ## buildTreeFromResults (App.tsx lines 182–268)

The TypeScript builds the tree imperatively: a global `treeMap` keyed by
`"folder-" + currentPath` (where `currentPath` joins the non-empty path
parts seen so far with `/`), and in-place `children.push` on the node the
map returns.  Because the key is exactly the chain of non-empty parts, a
key present in the map always denotes a node sitting in the children list
of the node for the chain's predecessor (its creation pushed it there), so
the global lookup is embedded as a search of the current level's children
list; everything else is a direct transcription. -/

/-- One iteration of the `for (let i = 0; ...)` folder-hierarchy loop: the
data of the folder node looked up or created for a non-empty path part. -/
structure FolderStep where
  id : String
  name : String
  path : String
  level : Nat
deriving DecidableEq, Repr

/-- `Array.prototype.join("/")` on the sliced parts. -/
def joinSlash : List String → String
  | [] => ""
  | [a] => a
  | a :: b :: rest => a ++ "/" ++ joinSlash (b :: rest)

/-- The folder-hierarchy loop of `buildTreeFromResults`: one `FolderStep`
per non-empty part, skipping empty parts (`if (!part) continue`),
threading `currentPath` and the index `i`.  `allParts` is the unsliced
array used for `projectPathParts.slice(0, i + 1).join("/")`. -/
def folderStepsAux (allParts : List String) : List String → Nat → String → List FolderStep
  | [], _, _ => []
  | part :: rest, i, cur =>
    if part = "" then folderStepsAux allParts rest (i + 1) cur
    else
      let cur2 := if cur = "" then part else cur ++ "/" ++ part
      { id := "folder-" ++ cur2
      , name := part
      , path := joinSlash (allParts.take (i + 1))
      , level := i } :: folderStepsAux allParts rest (i + 1) cur2

def folderSteps (parts : List String) : List FolderStep :=
  folderStepsAux parts parts 0 ""

/-- The `nodeModulesNode` literal created for one scan item
(`level: projectPathParts.length`). -/
def nmNode (item : ScanItem) (lv : Nat) : TreeNode :=
  .mk ("node_modules-" ++ item.node_modules_path) "node_modules"
    item.node_modules_path .node_modules .nil item.size false false lv

/-- The `newNode` folder literal: `size: 0`, `isExpanded: i < 2`,
`isSelected: false`. -/
def newFolderNode (s : FolderStep) (c : Forest) : TreeNode :=
  .mk s.id s.name s.path .folder c (some 0) (decide (s.level < 2)) false s.level

def TreeNode.withChildren : TreeNode → Forest → TreeNode
  | .mk i nm p ty _ sz ex sel lv, c => .mk i nm p ty c sz ex sel lv

/-- Look up the folder node for step `s` in the current children list:
when present, continue building inside its children (the push-based
mutation); when absent, create it (appended at the end, as `push` does)
and build inside its empty children list. -/
def placeChild (s : FolderStep) (build : Forest → Forest) : Forest → Forest
  | .nil => .cons (newFolderNode s (build .nil)) .nil
  | .cons n f =>
    if n.id = s.id then .cons (n.withChildren (build n.children)) f
    else .cons n (placeChild s build f)

/-- Descend through the folder steps of one scan item; after the last
step, `parentNode.children.push(nodeModulesNode)` appends the
node_modules leaf.  With no steps at all, `parentNode` stays `null` and
the leaf is dropped. -/
def insertSteps (item : ScanItem) (lv : Nat) : List FolderStep → Forest → Forest
  | [], f => f
  | s :: rest, f =>
    placeChild s
      (fun c =>
        if rest.isEmpty then Forest.append c (.cons (nmNode item lv) .nil)
        else insertSteps item lv rest c)
      f

/-- Processing one item of `sortedResults` inside the `for...of` loop. -/
def insertItem (f : Forest) (item : ScanItem) : Forest :=
  let parts := splitPath item.project_path
  insertSteps item parts.length (folderSteps parts) f

/-- Stable insertion used to model
`[...results].sort((a, b) => a.project_path.localeCompare(b.project_path))`;
`localeCompare` is locale-dependent, so the sort is modelled with the
lexicographic order — every theorem below is independent of the
particular permutation the comparator produces. -/
def insertSorted (x : ScanItem) : List ScanItem → List ScanItem
  | [] => [x]
  | y :: ys =>
    if x.project_path < y.project_path then x :: y :: ys
    else y :: insertSorted x ys

def sortByProject : List ScanItem → List ScanItem
  | [] => []
  | x :: xs => insertSorted x (sortByProject xs)

/-- `children.reduce((total, child) => total + (child.size || 0), 0)`:
a missing (`null`/`undefined`) child size contributes 0 (and `0 || 0` is
also 0). -/
def sumSizes : Forest → Nat
  | .nil => 0
  | .cons n f => n.size.getD 0 + sumSizes f

/-- `calculateFolderSizes`: post-order walk that overwrites the size of
every folder node with at least one child by the sum of its (already
recomputed) children's sizes; every other node is left untouched. -/
def calcForest : Forest → Forest
  | .nil => .nil
  | .cons (.mk i nm p ty c sz ex sel lv) f =>
    let node :=
      if ty = NType.folder ∧ c.isNil = false then
        let c2 := calcForest c
        TreeNode.mk i nm p ty c2 (some (sumSizes c2)) ex sel lv
      else TreeNode.mk i nm p ty c sz ex sel lv
    .cons node (calcForest f)

/-- `buildTreeFromResults` (App.tsx lines 182–268): sort, build the folder
hierarchy with the node_modules leaves, then compute folder sizes. -/
def buildTreeFromResults (results : List ScanItem) : Forest :=
  calcForest ((sortByProject results).foldl insertItem Forest.nil)

/-! ## Selection collection and the tree operations that feed it
(App.tsx lines 270–375) -/

mutual
/-- `collectSelectedPaths` of `updateSelectedItems`: a node contributes
its `path` when `isSelected && type === "node_modules"`; children are
always walked.  The JS accumulates into a `Set`; the list here has the
same membership. -/
def TreeNode.collectSelected : TreeNode → List String
  | .mk _ _ p ty c _ _ sel _ =>
    (if sel = true ∧ ty = NType.node_modules then [p] else []) ++
      Forest.collectSelected c

def Forest.collectSelected : Forest → List String
  | .nil => []
  | .cons n f => TreeNode.collectSelected n ++ Forest.collectSelected f
end

mutual
/-- `updateNode` of `toggleNodeSelection`: the matched node gets
`isSelected := b`; when it is a folder with children, its direct children
are shallow-copied with `isSelected := b` before the same `updateNode`
recursion runs over them (`tsForestSet` below fuses that composition);
everywhere else the recursion just descends. -/
def tsNode (nodeId : String) (b : Bool) : TreeNode → TreeNode
  | .mk i nm p ty c sz ex sel lv =>
    if i = nodeId then
      if ty = NType.folder ∧ c.isNil = false then
        .mk i nm p ty (tsForestSet nodeId b c) sz ex b lv
      else .mk i nm p ty c sz ex b lv
    else if c.isNil = false then .mk i nm p ty (tsForest nodeId b c) sz ex sel lv
    else .mk i nm p ty c sz ex sel lv

def tsForest (nodeId : String) (b : Bool) : Forest → Forest
  | .nil => .nil
  | .cons n f => .cons (tsNode nodeId b n) (tsForest nodeId b f)

/-- `updateNode(node.children.map(child => ({...child, isSelected: b})))`:
`updateNode` maps each node independently, so the composition sets the
node's own `isSelected` to `b` and proceeds as `tsNode` does. -/
def tsNodeSet (nodeId : String) (b : Bool) : TreeNode → TreeNode
  | .mk i nm p ty c sz ex _ lv =>
    if i = nodeId then
      if ty = NType.folder ∧ c.isNil = false then
        .mk i nm p ty (tsForestSet nodeId b c) sz ex b lv
      else .mk i nm p ty c sz ex b lv
    else if c.isNil = false then .mk i nm p ty (tsForest nodeId b c) sz ex b lv
    else .mk i nm p ty c sz ex b lv

def tsForestSet (nodeId : String) (b : Bool) : Forest → Forest
  | .nil => .nil
  | .cons n f => .cons (tsNodeSet nodeId b n) (tsForestSet nodeId b f)
end

/-- `toggleNodeSelection(nodeId, b)` applied to the tree data. -/
def toggleNodeSelectionF (nodeId : String) (b : Bool) (t : Forest) : Forest :=
  tsForest nodeId b t

mutual
/-- `updateNode` of `toggleNodeExpansion`: the matched node's
`isExpanded` is flipped and returned immediately (its children are not
walked); otherwise the recursion descends into non-empty children. -/
def teNode (nodeId : String) : TreeNode → TreeNode
  | .mk i nm p ty c sz ex sel lv =>
    if i = nodeId then .mk i nm p ty c sz (!ex) sel lv
    else if c.isNil = false then .mk i nm p ty (teForest nodeId c) sz ex sel lv
    else .mk i nm p ty c sz ex sel lv

def teForest (nodeId : String) : Forest → Forest
  | .nil => .nil
  | .cons n f => .cons (teNode nodeId n) (teForest nodeId f)
end

def toggleNodeExpansionF (nodeId : String) (t : Forest) : Forest :=
  teForest nodeId t

mutual
/-- `updateNode` of `selectAllNodeModules`: node_modules nodes get
`isSelected := true`; other nodes with children get `isExpanded := true`
and recursed children; childless non-node_modules nodes are unchanged. -/
def saNode : TreeNode → TreeNode
  | .mk i nm p ty c sz ex sel lv =>
    if ty = NType.node_modules then .mk i nm p ty c sz ex true lv
    else if c.isNil = false then .mk i nm p ty (saForest c) sz true sel lv
    else .mk i nm p ty c sz ex sel lv

def saForest : Forest → Forest
  | .nil => .nil
  | .cons n f => .cons (saNode n) (saForest f)
end

mutual
/-- `updateNode` of `deselectAllNodeModules`: node_modules nodes get
`isSelected := false`; other nodes with children get recursed children. -/
def dsNode : TreeNode → TreeNode
  | .mk i nm p ty c sz ex sel lv =>
    if ty = NType.node_modules then .mk i nm p ty c sz ex false lv
    else if c.isNil = false then .mk i nm p ty (dsForest c) sz ex sel lv
    else .mk i nm p ty c sz ex sel lv

def dsForest : Forest → Forest
  | .nil => .nil
  | .cons n f => .cons (dsNode n) (dsForest f)
end

/-- The tree states the `treeData` React state can reach from a scan's
results: the freshly built tree, followed by any sequence of the four
tree-updating handlers of App.tsx. -/
inductive SelectionReachable (results : List ScanItem) : Forest → Prop where
  | base : SelectionReachable results (buildTreeFromResults results)
  | toggleExpand (nodeId : String) {t : Forest} :
      SelectionReachable results t →
      SelectionReachable results (toggleNodeExpansionF nodeId t)
  | toggleSelect (nodeId : String) (b : Bool) {t : Forest} :
      SelectionReachable results t →
      SelectionReachable results (toggleNodeSelectionF nodeId b t)
  | selectAll {t : Forest} :
      SelectionReachable results t → SelectionReachable results (saForest t)
  | deselectAll {t : Forest} :
      SelectionReachable results t → SelectionReachable results (dsForest t)

/-! ## Invariants used to settle C9 and C10 -/

/-- Invariant of every node of the forest built by the insertion phase
(before `calculateFolderSizes`): node_modules nodes are leaves carrying
the data of some scan item, with the `"node_modules-"`-prefixed id; folder
nodes still carry the initial size 0. -/
def NodeOkPre (results : List ScanItem) (n : TreeNode) : Prop :=
  (n.ntype = NType.node_modules →
    n.children = Forest.nil ∧
    n.id = "node_modules-" ++ n.path ∧
    ∃ it ∈ results, n.path = it.node_modules_path ∧ n.size = it.size) ∧
  (n.ntype = NType.folder → n.size = some 0)

def ForestOkPre (results : List ScanItem) (f : Forest) : Prop :=
  ∀ n ∈ f.allNodes, NodeOkPre results n

/-- Invariant of every node after `calculateFolderSizes`: the folder-size
equations of C10, and node_modules leaves still carrying their item's
data. -/
def NodeOkPost (results : List ScanItem) (n : TreeNode) : Prop :=
  (n.ntype = NType.folder →
    (n.children.isNil = false → n.size = some (sumSizes n.children)) ∧
    (n.children.isNil = true → n.size = some 0)) ∧
  (n.ntype = NType.node_modules →
    n.children = Forest.nil ∧
    ∃ it ∈ results, n.path = it.node_modules_path ∧ n.size = it.size)

/-! ## Theorems -/

@[simp]
theorem Forest.allNodes_nil : Forest.allNodes .nil = [] := rfl

@[simp]
theorem Forest.allNodes_cons (n : TreeNode) (f : Forest) :
    Forest.allNodes (.cons n f) = TreeNode.allNodes n ++ Forest.allNodes f := rfl

@[simp]
theorem TreeNode.allNodes_mk (i nm p : String) (ty : NType) (c : Forest)
    (sz : Option Nat) (ex sel : Bool) (lv : Nat) :
    TreeNode.allNodes (.mk i nm p ty c sz ex sel lv) =
      .mk i nm p ty c sz ex sel lv :: Forest.allNodes c := rfl

@[simp]
theorem TreeNode.id_mk (i nm p : String) (ty : NType) (c : Forest)
    (sz : Option Nat) (ex sel : Bool) (lv : Nat) :
    (TreeNode.mk i nm p ty c sz ex sel lv).id = i := rfl

@[simp]
theorem TreeNode.path_mk (i nm p : String) (ty : NType) (c : Forest)
    (sz : Option Nat) (ex sel : Bool) (lv : Nat) :
    (TreeNode.mk i nm p ty c sz ex sel lv).path = p := rfl

@[simp]
theorem TreeNode.ntype_mk (i nm p : String) (ty : NType) (c : Forest)
    (sz : Option Nat) (ex sel : Bool) (lv : Nat) :
    (TreeNode.mk i nm p ty c sz ex sel lv).ntype = ty := rfl

@[simp]
theorem TreeNode.children_mk (i nm p : String) (ty : NType) (c : Forest)
    (sz : Option Nat) (ex sel : Bool) (lv : Nat) :
    (TreeNode.mk i nm p ty c sz ex sel lv).children = c := rfl

@[simp]
theorem TreeNode.size_mk (i nm p : String) (ty : NType) (c : Forest)
    (sz : Option Nat) (ex sel : Bool) (lv : Nat) :
    (TreeNode.mk i nm p ty c sz ex sel lv).size = sz := rfl

@[simp]
theorem TreeNode.withChildren_mk (i nm p : String) (ty : NType) (c c2 : Forest)
    (sz : Option Nat) (ex sel : Bool) (lv : Nat) :
    (TreeNode.mk i nm p ty c sz ex sel lv).withChildren c2 =
      .mk i nm p ty c2 sz ex sel lv := rfl

theorem Forest.allNodes_append :
    ∀ (f g : Forest), (Forest.append f g).allNodes = f.allNodes ++ g.allNodes
  | .nil, g => by simp [Forest.append]
  | .cons n f, g => by simp [Forest.append, Forest.allNodes_append f g]

theorem Forest.isNil_true_iff (f : Forest) : f.isNil = true ↔ f = .nil := by
  cases f <;> simp [Forest.isNil]

theorem calcForest_isNil (f : Forest) : (calcForest f).isNil = f.isNil := by
  cases f with
  | nil => rfl
  | cons n f => cases n; simp [calcForest, Forest.isNil]

/-- The `"folder-"`-prefixed treeMap keys of folder nodes can never equal
a `"node_modules-"`-prefixed key. -/
theorem folderId_ne_nmId (a b : String) : "folder-" ++ a ≠ "node_modules-" ++ b := by
  intro h
  have hd : (("folder-" : String) ++ a).data = (("node_modules-" : String) ++ b).data := by
    rw [h]
  have h1 : (("folder-" : String) ++ a).data.head? = some 'f' := by
    rw [String.data_append]; rfl
  have h2 : (("node_modules-" : String) ++ b).data.head? = some 'n' := by
    rw [String.data_append]; rfl
  rw [hd, h2] at h1
  simp at h1

/-- Helper: the unit index produced by the size loop never leaves the
units array. -/
theorem sizeLoopFuel_idx_le (fuel : Nat) :
    ∀ size unitIndex, unitIndex ≤ 4 → (sizeLoopFuel fuel size unitIndex).2 ≤ 4 := by
  induction fuel with
  | zero => intro size i h; simpa [sizeLoopFuel] using h
  | succ fuel ih =>
    intro size i h
    rw [sizeLoopFuel]
    split
    · rename_i hcond
      exact ih _ _ hcond.2
    · simpa using h

/-- Helper: a string of the form `a ++ " " ++ b` is never the one-character
placeholder `"—"`. -/
theorem append_space_ne_dash (a b : String) : a ++ " " ++ b ≠ "—" := by
  intro h
  have hd : (a ++ " " ++ b).data = ("—" : String).data := by rw [h]
  have hmem : ' ' ∈ (a ++ " " ++ b).data := by
    simp [String.data_append]
  rw [hd] at hmem
  simp at hmem

/-- Helper: looking up / creating a folder-keyed node and rebuilding its
children preserves the pre-`calculateFolderSizes` invariant.  The
`"folder-"`-prefixed key can only match a folder node, because
node_modules nodes carry `"node_modules-"`-prefixed ids. -/
theorem placeChild_ok (results : List ScanItem) (s : FolderStep)
    (hs : ∃ c0, s.id = "folder-" ++ c0)
    (build : Forest → Forest)
    (hb : ∀ c, ForestOkPre results c → ForestOkPre results (build c)) :
    ∀ f, ForestOkPre results f → ForestOkPre results (placeChild s build f)
  | .nil => fun _ => by
    intro m hm
    simp only [placeChild, newFolderNode, Forest.allNodes_cons, Forest.allNodes_nil,
      TreeNode.allNodes_mk, List.append_nil, List.mem_cons] at hm
    rcases hm with rfl | hm
    · constructor
      · intro hty; simp at hty
      · intro _; simp
    · exact hb .nil (by intro x hx; simp at hx) m hm
  | .cons (.mk i nm p ty c sz ex sel lv) f => fun h => by
    have hn : NodeOkPre results (.mk i nm p ty c sz ex sel lv) := h _ (by simp)
    have hc : ForestOkPre results c := fun m hm => h m (by simp [hm])
    have hf : ForestOkPre results f := fun m hm => h m (by simp [hm])
    rw [placeChild]
    by_cases heq : (TreeNode.mk i nm p ty c sz ex sel lv).id = s.id
    · rw [if_pos heq]
      have hty : ty = NType.folder := by
        cases ty
        · rfl
        · exfalso
          obtain ⟨c0, hc0⟩ := hs
          have hid : i = "node_modules-" ++ p := by simpa using (hn.1 rfl).2.1
          exact folderId_ne_nmId c0 p (by rw [← hc0]; simp at heq; rw [← heq, hid])
      subst hty
      intro m hm
      simp only [TreeNode.withChildren_mk, TreeNode.children_mk, Forest.allNodes_cons,
        TreeNode.allNodes_mk, List.mem_append, List.mem_cons] at hm
      rcases hm with (rfl | hm) | hm
      · constructor
        · intro hco; simp at hco
        · intro _; simpa using hn.2 rfl
      · exact hb c hc m hm
      · exact hf m hm
    · rw [if_neg heq]
      intro m hm
      simp only [Forest.allNodes_cons, TreeNode.allNodes_mk, List.mem_append,
        List.mem_cons] at hm
      rcases hm with (rfl | hm) | hm
      · exact hn
      · exact hc m hm
      · exact placeChild_ok results s hs build hb f hf m hm

/-- Helper: every step the folder-hierarchy loop emits has a
`"folder-"`-prefixed treeMap key. -/
theorem folderStepsAux_ids (allParts : List String) :
    ∀ parts i cur, ∀ s ∈ folderStepsAux allParts parts i cur,
      ∃ c0, s.id = "folder-" ++ c0
  | [], _, _ => by simp [folderStepsAux]
  | part :: rest, i, cur => by
    intro s hs
    rw [folderStepsAux] at hs
    split at hs
    · exact folderStepsAux_ids allParts rest (i + 1) cur s hs
    · simp only [List.mem_cons] at hs
      rcases hs with rfl | hs
      · exact ⟨_, rfl⟩
      · exact folderStepsAux_ids allParts rest (i + 1) _ s hs

/-- Helper: inserting one scan item of the result list preserves the
pre-`calculateFolderSizes` invariant. -/
theorem insertSteps_ok (results : List ScanItem) (item : ScanItem)
    (hit : item ∈ results) (lv : Nat) :
    ∀ steps, (∀ s ∈ steps, ∃ c0, s.id = "folder-" ++ c0) →
      ∀ f, ForestOkPre results f →
        ForestOkPre results (insertSteps item lv steps f)
  | [] => fun _ f hf => by rw [insertSteps]; exact hf
  | s :: rest => fun hsteps f hf => by
    rw [insertSteps]
    refine placeChild_ok results s (hsteps s (by simp)) _ ?_ f hf
    intro c hc
    dsimp only
    split
    · intro m hm
      rw [Forest.allNodes_append] at hm
      simp only [nmNode, Forest.allNodes_cons, Forest.allNodes_nil, TreeNode.allNodes_mk,
        List.append_nil, List.mem_append, List.mem_cons, List.not_mem_nil, or_false] at hm
      rcases hm with hm | rfl
      · exact hc m hm
      · constructor
        · intro _
          exact ⟨rfl, rfl, item, hit, rfl, rfl⟩
        · intro hco; simp at hco
    · exact insertSteps_ok results item hit lv rest
        (fun s2 hs2 => hsteps s2 (by simp [hs2])) c hc

theorem insertItem_ok (results : List ScanItem) (f : Forest) (item : ScanItem)
    (hit : item ∈ results) (hf : ForestOkPre results f) :
    ForestOkPre results (insertItem f item) := by
  rw [insertItem]
  exact insertSteps_ok results item hit _ _
    (folderStepsAux_ids _ _ 0 "") f hf

theorem foldl_insertItem_ok (results : List ScanItem) :
    ∀ (l : List ScanItem), (∀ it ∈ l, it ∈ results) →
      ∀ f, ForestOkPre results f → ForestOkPre results (l.foldl insertItem f)
  | [] => fun _ f hf => by simpa using hf
  | x :: xs => fun hl f hf => by
    rw [List.foldl_cons]
    exact foldl_insertItem_ok results xs (fun it hi => hl it (by simp [hi])) _
      (insertItem_ok results f x (hl x (by simp)) hf)

theorem mem_insertSorted (x a : ScanItem) :
    ∀ l, a ∈ insertSorted x l → a = x ∨ a ∈ l
  | [] => by simp [insertSorted]
  | y :: ys => by
    rw [insertSorted]
    split
    · intro h; simpa using h
    · intro h
      simp only [List.mem_cons] at h
      rcases h with rfl | h
      · exact Or.inr (by simp)
      · rcases mem_insertSorted x a ys h with h | h
        · exact Or.inl h
        · exact Or.inr (by simp [h])

theorem mem_sortByProject (a : ScanItem) : ∀ l, a ∈ sortByProject l → a ∈ l
  | [] => by simp [sortByProject]
  | x :: xs => by
    rw [sortByProject]
    intro h
    rcases mem_insertSorted x a _ h with rfl | h
    · simp
    · simp [mem_sortByProject a xs h]

/-- Helper: `calculateFolderSizes` turns the insertion-phase invariant
into the folder-size invariant of C10, node by node. -/
theorem calcForest_post (results : List ScanItem) :
    ∀ (f : Forest), (∀ m ∈ f.allNodes, NodeOkPre results m) →
      ∀ m ∈ (calcForest f).allNodes, NodeOkPost results m
  | .nil => by intro _ m hm; simp [calcForest] at hm
  | .cons (.mk i nm p ty c sz ex sel lv) f => by
    intro h m hm
    have hhead : NodeOkPre results (.mk i nm p ty c sz ex sel lv) := h _ (by simp)
    have hc : ∀ m2 ∈ c.allNodes, NodeOkPre results m2 := fun m2 hm2 => h m2 (by simp [hm2])
    have hf : ∀ m2 ∈ f.allNodes, NodeOkPre results m2 := fun m2 hm2 => h m2 (by simp [hm2])
    rw [calcForest] at hm
    by_cases hcond : ty = NType.folder ∧ c.isNil = false
    · rw [if_pos hcond] at hm
      simp only [Forest.allNodes_cons, TreeNode.allNodes_mk, List.mem_append,
        List.mem_cons] at hm
      rcases hm with (rfl | hm) | hm
      · constructor
        · intro _
          constructor
          · intro _; simp
          · intro hnil
            rw [TreeNode.children_mk, calcForest_isNil] at hnil
            rw [hcond.2] at hnil
            exact absurd hnil (by simp)
        · intro hco
          rw [TreeNode.ntype_mk, hcond.1] at hco
          exact absurd hco (by simp)
      · exact calcForest_post results c hc m hm
      · exact calcForest_post results f hf m hm
    · rw [if_neg hcond] at hm
      have hcnil : c = Forest.nil := by
        cases ty
        · rcases not_and_or.mp hcond with hty | hnil
          · exact absurd rfl hty
          · exact (Forest.isNil_true_iff c).mp (by simpa using hnil)
        · simpa using (hhead.1 rfl).1
      subst hcnil
      simp only [Forest.allNodes_cons, TreeNode.allNodes_mk, Forest.allNodes_nil,
        List.mem_append, List.mem_cons, List.not_mem_nil, or_false] at hm
      rcases hm with rfl | hm
      · cases ty
        · constructor
          · intro _
            constructor
            · intro hnil; simp [Forest.isNil] at hnil
            · intro _; simpa using hhead.2 rfl
          · intro hco; simp at hco
        · constructor
          · intro hco; simp at hco
          · intro _
            exact ⟨rfl, (hhead.1 rfl).2.2⟩
      · exact calcForest_post results f hf m hm

/-- Helper: every node of the tree `buildTreeFromResults` returns
satisfies the post-`calculateFolderSizes` invariant. -/
theorem buildTree_post (results : List ScanItem) :
    ∀ m ∈ (buildTreeFromResults results).allNodes, NodeOkPost results m := by
  have hbuilt := foldl_insertItem_ok results (sortByProject results)
    (fun it => mem_sortByProject it results) Forest.nil
    (by intro m hm; simp at hm)
  exact calcForest_post results _ hbuilt

/-- C10: after `buildTreeFromResults`, every folder node with at least one
child has size equal to the sum of its children's sizes (an absent child
size contributing 0), every childless folder node keeps size 0, and every
node_modules leaf keeps the path and size of the scan item it was built
from. -/
theorem buildTreeFromResults_folder_sizes (results : List ScanItem) :
    ∀ n ∈ (buildTreeFromResults results).allNodes,
      (n.ntype = NType.folder →
        (n.children.isNil = false → n.size = some (sumSizes n.children)) ∧
        (n.children.isNil = true → n.size = some 0)) ∧
      (n.ntype = NType.node_modules →
        ∃ it ∈ results, n.path = it.node_modules_path ∧ n.size = it.size) := by
  intro n hn
  have h := buildTree_post results n hn
  exact ⟨h.1, fun hty => (h.2 hty).2⟩

/-- Witness for C10 on the tree of one concrete scan item: its root
folder node sums its children's sizes. -/
theorem buildTreeFromResults_folder_sizes_witness :
    let leaf : TreeNode := .mk "node_modules-a/node_modules" "node_modules"
      "a/node_modules" .node_modules .nil (some 7) false false 1
    let root : TreeNode := .mk "folder-a" "a" "a" .folder (.cons leaf .nil)
      (some 7) true false 0
    (root.ntype = NType.folder →
      (root.children.isNil = false → root.size = some (sumSizes root.children)) ∧
      (root.children.isNil = true → root.size = some 0)) ∧
    (root.ntype = NType.node_modules →
      ∃ it ∈ [(⟨"a", "a/node_modules", some 7⟩ : ScanItem)],
        root.path = it.node_modules_path ∧ root.size = it.size) := by
  intro leaf root
  refine buildTreeFromResults_folder_sizes [⟨"a", "a/node_modules", some 7⟩] root ?_
  have hlist : (buildTreeFromResults [(⟨"a", "a/node_modules", some 7⟩ : ScanItem)]).allNodes
      = [root, leaf] := rfl
  rw [hlist]
  exact List.mem_cons_self _ _

/-- Helper: every path the selection collector produces is the path of a
node_modules-typed node of the walked tree. -/
theorem collectSelected_sub :
    ∀ (f : Forest), ∀ p ∈ Forest.collectSelected f,
      ∃ n ∈ f.allNodes, n.ntype = NType.node_modules ∧ n.path = p
  | .nil => by simp [Forest.collectSelected]
  | .cons (.mk i nm p0 ty c sz ex sel lv) f => by
    intro p hp
    rw [Forest.collectSelected, TreeNode.collectSelected] at hp
    simp only [List.mem_append] at hp
    rcases hp with hp | hp
    · rcases hp with hp | hp
      · rw [List.mem_ite_nil_right] at hp
        refine ⟨.mk i nm p0 ty c sz ex sel lv, by simp, ?_, ?_⟩
        · simp [hp.1.2]
        · simp only [List.mem_singleton] at hp
          simp [hp.2.symm]
      · obtain ⟨n, hn, hty, hpath⟩ := collectSelected_sub c p hp
        exact ⟨n, by simp [hn], hty, hpath⟩
    · obtain ⟨n, hn, hty, hpath⟩ := collectSelected_sub f p hp
      exact ⟨n, by simp [hn], hty, hpath⟩

/-! Preservation of every node's `(type, path)` by the four tree-updating
handlers: each only rewrites `isSelected` / `isExpanded` flags and
children lists, so every node of the output corresponds to a node of the
input with the same type and path. -/

theorem teForest_paths (nodeId : String) :
    ∀ (f : Forest), ∀ m ∈ (teForest nodeId f).allNodes,
      ∃ n ∈ f.allNodes, m.ntype = n.ntype ∧ m.path = n.path
  | .nil => by simp [teForest]
  | .cons (.mk i nm p ty c sz ex sel lv) f => by
    intro m hm
    rw [teForest, teNode] at hm
    by_cases hid : i = nodeId
    · rw [if_pos hid] at hm
      simp only [Forest.allNodes_cons, TreeNode.allNodes_mk, List.mem_append,
        List.mem_cons] at hm
      rcases hm with (rfl | hm) | hm
      · exact ⟨.mk i nm p ty c sz ex sel lv, by simp, by simp, by simp⟩
      · exact ⟨m, by simp [hm], rfl, rfl⟩
      · obtain ⟨n, hn, h1, h2⟩ := teForest_paths nodeId f m hm
        exact ⟨n, by simp [hn], h1, h2⟩
    · rw [if_neg hid] at hm
      by_cases hnil : c.isNil = false
      · rw [if_pos hnil] at hm
        simp only [Forest.allNodes_cons, TreeNode.allNodes_mk, List.mem_append,
          List.mem_cons] at hm
        rcases hm with (rfl | hm) | hm
        · exact ⟨.mk i nm p ty c sz ex sel lv, by simp, by simp, by simp⟩
        · obtain ⟨n, hn, h1, h2⟩ := teForest_paths nodeId c m hm
          exact ⟨n, by simp [hn], h1, h2⟩
        · obtain ⟨n, hn, h1, h2⟩ := teForest_paths nodeId f m hm
          exact ⟨n, by simp [hn], h1, h2⟩
      · rw [if_neg hnil] at hm
        simp only [Forest.allNodes_cons, TreeNode.allNodes_mk, List.mem_append,
          List.mem_cons] at hm
        rcases hm with (rfl | hm) | hm
        · exact ⟨.mk i nm p ty c sz ex sel lv, by simp, by simp, by simp⟩
        · exact ⟨m, by simp [hm], rfl, rfl⟩
        · obtain ⟨n, hn, h1, h2⟩ := teForest_paths nodeId f m hm
          exact ⟨n, by simp [hn], h1, h2⟩

theorem saForest_paths :
    ∀ (f : Forest), ∀ m ∈ (saForest f).allNodes,
      ∃ n ∈ f.allNodes, m.ntype = n.ntype ∧ m.path = n.path
  | .nil => by simp [saForest]
  | .cons (.mk i nm p ty c sz ex sel lv) f => by
    intro m hm
    rw [saForest, saNode] at hm
    by_cases hty : ty = NType.node_modules
    · rw [if_pos hty] at hm
      simp only [Forest.allNodes_cons, TreeNode.allNodes_mk, List.mem_append,
        List.mem_cons] at hm
      rcases hm with (rfl | hm) | hm
      · exact ⟨.mk i nm p ty c sz ex sel lv, by simp, by simp, by simp⟩
      · exact ⟨m, by simp [hm], rfl, rfl⟩
      · obtain ⟨n, hn, h1, h2⟩ := saForest_paths f m hm
        exact ⟨n, by simp [hn], h1, h2⟩
    · rw [if_neg hty] at hm
      by_cases hnil : c.isNil = false
      · rw [if_pos hnil] at hm
        simp only [Forest.allNodes_cons, TreeNode.allNodes_mk, List.mem_append,
          List.mem_cons] at hm
        rcases hm with (rfl | hm) | hm
        · exact ⟨.mk i nm p ty c sz ex sel lv, by simp, by simp, by simp⟩
        · obtain ⟨n, hn, h1, h2⟩ := saForest_paths c m hm
          exact ⟨n, by simp [hn], h1, h2⟩
        · obtain ⟨n, hn, h1, h2⟩ := saForest_paths f m hm
          exact ⟨n, by simp [hn], h1, h2⟩
      · rw [if_neg hnil] at hm
        simp only [Forest.allNodes_cons, TreeNode.allNodes_mk, List.mem_append,
          List.mem_cons] at hm
        rcases hm with (rfl | hm) | hm
        · exact ⟨.mk i nm p ty c sz ex sel lv, by simp, by simp, by simp⟩
        · exact ⟨m, by simp [hm], rfl, rfl⟩
        · obtain ⟨n, hn, h1, h2⟩ := saForest_paths f m hm
          exact ⟨n, by simp [hn], h1, h2⟩

theorem dsForest_paths :
    ∀ (f : Forest), ∀ m ∈ (dsForest f).allNodes,
      ∃ n ∈ f.allNodes, m.ntype = n.ntype ∧ m.path = n.path
  | .nil => by simp [dsForest]
  | .cons (.mk i nm p ty c sz ex sel lv) f => by
    intro m hm
    rw [dsForest, dsNode] at hm
    by_cases hty : ty = NType.node_modules
    · rw [if_pos hty] at hm
      simp only [Forest.allNodes_cons, TreeNode.allNodes_mk, List.mem_append,
        List.mem_cons] at hm
      rcases hm with (rfl | hm) | hm
      · exact ⟨.mk i nm p ty c sz ex sel lv, by simp, by simp, by simp⟩
      · exact ⟨m, by simp [hm], rfl, rfl⟩
      · obtain ⟨n, hn, h1, h2⟩ := dsForest_paths f m hm
        exact ⟨n, by simp [hn], h1, h2⟩
    · rw [if_neg hty] at hm
      by_cases hnil : c.isNil = false
      · rw [if_pos hnil] at hm
        simp only [Forest.allNodes_cons, TreeNode.allNodes_mk, List.mem_append,
          List.mem_cons] at hm
        rcases hm with (rfl | hm) | hm
        · exact ⟨.mk i nm p ty c sz ex sel lv, by simp, by simp, by simp⟩
        · obtain ⟨n, hn, h1, h2⟩ := dsForest_paths c m hm
          exact ⟨n, by simp [hn], h1, h2⟩
        · obtain ⟨n, hn, h1, h2⟩ := dsForest_paths f m hm
          exact ⟨n, by simp [hn], h1, h2⟩
      · rw [if_neg hnil] at hm
        simp only [Forest.allNodes_cons, TreeNode.allNodes_mk, List.mem_append,
          List.mem_cons] at hm
        rcases hm with (rfl | hm) | hm
        · exact ⟨.mk i nm p ty c sz ex sel lv, by simp, by simp, by simp⟩
        · exact ⟨m, by simp [hm], rfl, rfl⟩
        · obtain ⟨n, hn, h1, h2⟩ := dsForest_paths f m hm
          exact ⟨n, by simp [hn], h1, h2⟩

mutual
theorem tsForest_paths (nodeId : String) (b : Bool) :
    ∀ (f : Forest), ∀ m ∈ (tsForest nodeId b f).allNodes,
      ∃ n ∈ f.allNodes, m.ntype = n.ntype ∧ m.path = n.path
  | .nil => by simp [tsForest]
  | .cons (.mk i nm p ty c sz ex sel lv) f => by
    intro m hm
    rw [tsForest, tsNode] at hm
    by_cases hid : i = nodeId
    · rw [if_pos hid] at hm
      by_cases hcond : ty = NType.folder ∧ c.isNil = false
      · rw [if_pos hcond] at hm
        simp only [Forest.allNodes_cons, TreeNode.allNodes_mk, List.mem_append,
          List.mem_cons] at hm
        rcases hm with (rfl | hm) | hm
        · exact ⟨.mk i nm p ty c sz ex sel lv, by simp, by simp, by simp⟩
        · obtain ⟨n, hn, h1, h2⟩ := tsForestSet_paths nodeId b c m hm
          exact ⟨n, by simp [hn], h1, h2⟩
        · obtain ⟨n, hn, h1, h2⟩ := tsForest_paths nodeId b f m hm
          exact ⟨n, by simp [hn], h1, h2⟩
      · rw [if_neg hcond] at hm
        simp only [Forest.allNodes_cons, TreeNode.allNodes_mk, List.mem_append,
          List.mem_cons] at hm
        rcases hm with (rfl | hm) | hm
        · exact ⟨.mk i nm p ty c sz ex sel lv, by simp, by simp, by simp⟩
        · exact ⟨m, by simp [hm], rfl, rfl⟩
        · obtain ⟨n, hn, h1, h2⟩ := tsForest_paths nodeId b f m hm
          exact ⟨n, by simp [hn], h1, h2⟩
    · rw [if_neg hid] at hm
      by_cases hnil : c.isNil = false
      · rw [if_pos hnil] at hm
        simp only [Forest.allNodes_cons, TreeNode.allNodes_mk, List.mem_append,
          List.mem_cons] at hm
        rcases hm with (rfl | hm) | hm
        · exact ⟨.mk i nm p ty c sz ex sel lv, by simp, by simp, by simp⟩
        · obtain ⟨n, hn, h1, h2⟩ := tsForest_paths nodeId b c m hm
          exact ⟨n, by simp [hn], h1, h2⟩
        · obtain ⟨n, hn, h1, h2⟩ := tsForest_paths nodeId b f m hm
          exact ⟨n, by simp [hn], h1, h2⟩
      · rw [if_neg hnil] at hm
        simp only [Forest.allNodes_cons, TreeNode.allNodes_mk, List.mem_append,
          List.mem_cons] at hm
        rcases hm with (rfl | hm) | hm
        · exact ⟨.mk i nm p ty c sz ex sel lv, by simp, by simp, by simp⟩
        · exact ⟨m, by simp [hm], rfl, rfl⟩
        · obtain ⟨n, hn, h1, h2⟩ := tsForest_paths nodeId b f m hm
          exact ⟨n, by simp [hn], h1, h2⟩

theorem tsForestSet_paths (nodeId : String) (b : Bool) :
    ∀ (f : Forest), ∀ m ∈ (tsForestSet nodeId b f).allNodes,
      ∃ n ∈ f.allNodes, m.ntype = n.ntype ∧ m.path = n.path
  | .nil => by simp [tsForestSet]
  | .cons (.mk i nm p ty c sz ex sel lv) f => by
    intro m hm
    rw [tsForestSet, tsNodeSet] at hm
    by_cases hid : i = nodeId
    · rw [if_pos hid] at hm
      by_cases hcond : ty = NType.folder ∧ c.isNil = false
      · rw [if_pos hcond] at hm
        simp only [Forest.allNodes_cons, TreeNode.allNodes_mk, List.mem_append,
          List.mem_cons] at hm
        rcases hm with (rfl | hm) | hm
        · exact ⟨.mk i nm p ty c sz ex sel lv, by simp, by simp, by simp⟩
        · obtain ⟨n, hn, h1, h2⟩ := tsForestSet_paths nodeId b c m hm
          exact ⟨n, by simp [hn], h1, h2⟩
        · obtain ⟨n, hn, h1, h2⟩ := tsForestSet_paths nodeId b f m hm
          exact ⟨n, by simp [hn], h1, h2⟩
      · rw [if_neg hcond] at hm
        simp only [Forest.allNodes_cons, TreeNode.allNodes_mk, List.mem_append,
          List.mem_cons] at hm
        rcases hm with (rfl | hm) | hm
        · exact ⟨.mk i nm p ty c sz ex sel lv, by simp, by simp, by simp⟩
        · exact ⟨m, by simp [hm], rfl, rfl⟩
        · obtain ⟨n, hn, h1, h2⟩ := tsForestSet_paths nodeId b f m hm
          exact ⟨n, by simp [hn], h1, h2⟩
    · rw [if_neg hid] at hm
      by_cases hnil : c.isNil = false
      · rw [if_pos hnil] at hm
        simp only [Forest.allNodes_cons, TreeNode.allNodes_mk, List.mem_append,
          List.mem_cons] at hm
        rcases hm with (rfl | hm) | hm
        · exact ⟨.mk i nm p ty c sz ex sel lv, by simp, by simp, by simp⟩
        · obtain ⟨n, hn, h1, h2⟩ := tsForest_paths nodeId b c m hm
          exact ⟨n, by simp [hn], h1, h2⟩
        · obtain ⟨n, hn, h1, h2⟩ := tsForestSet_paths nodeId b f m hm
          exact ⟨n, by simp [hn], h1, h2⟩
      · rw [if_neg hnil] at hm
        simp only [Forest.allNodes_cons, TreeNode.allNodes_mk, List.mem_append,
          List.mem_cons] at hm
        rcases hm with (rfl | hm) | hm
        · exact ⟨.mk i nm p ty c sz ex sel lv, by simp, by simp, by simp⟩
        · exact ⟨m, by simp [hm], rfl, rfl⟩
        · obtain ⟨n, hn, h1, h2⟩ := tsForestSet_paths nodeId b f m hm
          exact ⟨n, by simp [hn], h1, h2⟩
end

/-- Helper: along every reachable tree state, node_modules-typed nodes
only ever carry a `node_modules_path` of the scan results. -/
theorem reachable_nm_paths (results : List ScanItem) (t : Forest)
    (h : SelectionReachable results t) :
    ∀ n ∈ t.allNodes, n.ntype = NType.node_modules →
      ∃ it ∈ results, n.path = it.node_modules_path := by
  induction h with
  | base =>
    intro n hn hty
    obtain ⟨it, hit, hp, _⟩ := (buildTree_post results n hn).2 hty |>.2
    exact ⟨it, hit, hp⟩
  | toggleExpand nodeId _ ih =>
    intro n hn hty
    obtain ⟨n0, hn0, h1, h2⟩ := teForest_paths nodeId _ n hn
    obtain ⟨it, hit, hp⟩ := ih n0 hn0 (h1 ▸ hty)
    exact ⟨it, hit, h2 ▸ hp⟩
  | toggleSelect nodeId b _ ih =>
    intro n hn hty
    obtain ⟨n0, hn0, h1, h2⟩ := tsForest_paths nodeId b _ n hn
    obtain ⟨it, hit, hp⟩ := ih n0 hn0 (h1 ▸ hty)
    exact ⟨it, hit, h2 ▸ hp⟩
  | selectAll _ ih =>
    intro n hn hty
    obtain ⟨n0, hn0, h1, h2⟩ := saForest_paths _ n hn
    obtain ⟨it, hit, hp⟩ := ih n0 hn0 (h1 ▸ hty)
    exact ⟨it, hit, h2 ▸ hp⟩
  | deselectAll _ ih =>
    intro n hn hty
    obtain ⟨n0, hn0, h1, h2⟩ := dsForest_paths _ n hn
    obtain ⟨it, hit, hp⟩ := ih n0 hn0 (h1 ▸ hty)
    exact ⟨it, hit, h2 ▸ hp⟩

/-- C9: in every tree state reachable from a scan's results, the
selection collector (and hence every bulk deletion request, which is
`Array.from(selectedItems)`) only produces paths of node_modules-typed
nodes — values that were some scan result's `node_modules_path`; a folder
node's path never appears. -/
theorem selectedPaths_only_node_modules (results : List ScanItem) (t : Forest)
    (h : SelectionReachable results t) :
    ∀ p ∈ Forest.collectSelected t,
      (∃ n ∈ t.allNodes, n.ntype = NType.node_modules ∧ n.path = p) ∧
      ∃ it ∈ results, p = it.node_modules_path := by
  intro p hp
  obtain ⟨n, hn, hty, hpath⟩ := collectSelected_sub t p hp
  refine ⟨⟨n, hn, hty, hpath⟩, ?_⟩
  obtain ⟨it, hit, hp2⟩ := reachable_nm_paths results t h n hn hty
  exact ⟨it, hit, hpath ▸ hp2⟩

/-- Witness for C9: after select-all on the tree of one concrete scan
item, the collected path is the item's `node_modules_path`. -/
theorem selectedPaths_only_node_modules_witness :
    (∃ n ∈ (saForest (buildTreeFromResults
        [(⟨"a", "a/node_modules", some 7⟩ : ScanItem)])).allNodes,
      n.ntype = NType.node_modules ∧ n.path = "a/node_modules") ∧
    (∃ it ∈ [(⟨"a", "a/node_modules", some 7⟩ : ScanItem)],
      "a/node_modules" = it.node_modules_path) :=
  selectedPaths_only_node_modules [(⟨"a", "a/node_modules", some 7⟩ : ScanItem)] _
    (SelectionReachable.selectAll SelectionReachable.base)
    "a/node_modules" (by decide)

/-- C6: `formatFileSize` returns the placeholder `"—"` exactly on absent
input; every present byte count is rendered as a fixed-point number
followed by one of the units (so it is never the placeholder), and zero
bytes render as `"0.0 B"`. -/
theorem formatFileSize_dash_iff_absent :
    formatFileSize none = "—" ∧
    (∀ bytes : ℚ,
      (∃ q : ℚ, ∃ i : Nat, i < sizeUnits.length ∧
        formatFileSize (some bytes) = jsToFixed1 q ++ " " ++ sizeUnits.getD i "") ∧
      formatFileSize (some bytes) ≠ "—") ∧
    formatFileSize (some 0) = "0.0 B" := by
  have hzero : formatFileSize (some 0) = "0.0 B" := by
    have hloop : sizeLoop (0 : ℚ) = (0, 0) := by
      norm_num [sizeLoop, sizeLoopFuel]
    have hfl : ⌊(0 : ℚ) * 10 + 1/2⌋ = 0 := by
      norm_num [Int.floor_eq_iff]
    simp only [formatFileSize, hloop, jsToFixed1, hfl]
    rfl
  refine ⟨rfl, ?_, hzero⟩
  intro bytes
  have hidx : (sizeLoop bytes).2 ≤ 4 := sizeLoopFuel_idx_le 4 bytes 0 (by decide)
  constructor
  · exact ⟨(sizeLoop bytes).1, (sizeLoop bytes).2,
      by simpa [sizeUnits] using Nat.lt_succ_of_le hidx, rfl⟩
  · exact append_space_ne_dash _ _

/-- C3: a start-scan request while a scan is already running is rejected —
`handleStartScan` leaves the whole component state unchanged and does not
invoke `start_scan_with_progress`. -/
theorem handleStartScan_rejected_while_scanning
    (s : AppState) (now : Nat) (h : s.isScanning = true) :
    handleStartScan s now = (s, none) := by
  simp [handleStartScan, h]

/-- Witness for C3 at a concrete state. -/
theorem handleStartScan_rejected_while_scanning_witness :
    let s : AppState :=
      { scanScope := .folder, selectedFolder := "/home/u/proj", selectedDrive := ""
      , drives := [], includeSizes := false, isScanning := true, isDeleting := false
      , scanProgress := startingProgress, scanResults := [], treeData := .nil
      , selectedItems := [], scanStartTime := some 5 }
    handleStartScan s 7 = (s, none) :=
  handleStartScan_rejected_while_scanning _ 7 rfl

/-- C4: a start-scan request whose resolved root list is empty — an empty
(trimmed) folder input, no chosen drive, or no drives listed for the
entire-computer scope — is rejected before any work begins: the command is
not invoked and no component state is mutated. -/
theorem handleStartScan_rejected_empty_roots
    (s : AppState) (now : Nat)
    (h : (s.scanScope = .folder ∧ s.selectedFolder.trim = "") ∨
         (s.scanScope = .drive ∧ s.selectedDrive = "") ∨
         (s.scanScope = .entire ∧ s.drives = [])) :
    handleStartScan s now = (s, none) := by
  rcases h with ⟨hsc, hsel⟩ | ⟨hsc, hsel⟩ | ⟨hsc, hsel⟩ <;>
    by_cases hscan : s.isScanning <;>
      simp [handleStartScan, hsc, hsel, hscan]

/-- Witness for C4 at a concrete state (entire-computer scope, no drives). -/
theorem handleStartScan_rejected_empty_roots_witness :
    let s : AppState :=
      { scanScope := .entire, selectedFolder := "", selectedDrive := ""
      , drives := [], includeSizes := true, isScanning := false, isDeleting := false
      , scanProgress := startingProgress, scanResults := [], treeData := .nil
      , selectedItems := [], scanStartTime := none }
    handleStartScan s 3 = (s, none) :=
  handleStartScan_rejected_empty_roots _ 3 (Or.inr (Or.inr ⟨rfl, rfl⟩))

/-- C5: the roots passed to `start_scan_with_progress` are exactly the
paths of every listed drive, in order, for the entire-computer scope, and
the single trimmed folder path / single selected drive path for the other
two scopes. -/
theorem handleStartScan_roots
    (s : AppState) (now : Nat) (hscan : s.isScanning = false) :
    (s.scanScope = .entire → s.drives ≠ [] →
      (handleStartScan s now).2 = some (s.drives.map (fun d => d.path), s.includeSizes)) ∧
    (s.scanScope = .folder → s.selectedFolder.trim ≠ "" →
      (handleStartScan s now).2 = some ([s.selectedFolder.trim], s.includeSizes)) ∧
    (s.scanScope = .drive → s.selectedDrive ≠ "" →
      (handleStartScan s now).2 = some ([s.selectedDrive], s.includeSizes)) := by
  refine ⟨?_, ?_, ?_⟩
  · intro hsc hd
    simp [handleStartScan, hscan, hsc, hd]
  · intro hsc hf
    simp [handleStartScan, hscan, hsc, hf]
  · intro hsc hd
    simp [handleStartScan, hscan, hsc, hd]

/-- Witness for C5 at a concrete state (entire-computer scope with two
drives). -/
theorem handleStartScan_roots_witness :
    let s : AppState :=
      { scanScope := .entire, selectedFolder := "  ", selectedDrive := ""
      , drives := [⟨"C:\\", "Local Disk (C:)"⟩, ⟨"D:\\", "Data (D:)"⟩]
      , includeSizes := true, isScanning := false, isDeleting := false
      , scanProgress := startingProgress, scanResults := [], treeData := .nil
      , selectedItems := [], scanStartTime := none }
    (handleStartScan s 3).2 = some (["C:\\", "D:\\"], true) := by
  have h := handleStartScan_roots
    { scanScope := .entire, selectedFolder := "  ", selectedDrive := ""
    , drives := [⟨"C:\\", "Local Disk (C:)"⟩, ⟨"D:\\", "Data (D:)"⟩]
    , includeSizes := true, isScanning := false, isDeleting := false
    , scanProgress := startingProgress, scanResults := [], treeData := .nil
    , selectedItems := [], scanStartTime := none } 3 rfl
  simpa using h.1 rfl (by simp)

/-- C8: a `scan_progress` event with the completion flag set leaves the
scanning state (`isScanning` becomes `false`); a snapshot without the flag
never changes `isScanning`. -/
theorem handleScanProgressEvent_complete_flag
    (s : AppState) (progress : ScanProgress) :
    (progress.is_complete = true →
      (handleScanProgressEvent s progress).isScanning = false) ∧
    (progress.is_complete = false →
      (handleScanProgressEvent s progress).isScanning = s.isScanning) := by
  constructor <;> intro h <;> simp [handleScanProgressEvent, h]

/-- Witness for C8 at a concrete state and snapshot. -/
theorem handleScanProgressEvent_complete_flag_witness :
    let s : AppState :=
      { scanScope := .folder, selectedFolder := "x", selectedDrive := ""
      , drives := [], includeSizes := false, isScanning := true, isDeleting := false
      , scanProgress := startingProgress, scanResults := [], treeData := .nil
      , selectedItems := [], scanStartTime := some 1 }
    let done : ScanProgress :=
      { current_folder := "/x", folders_scanned := 10, total_folders_estimated := 10
      , node_modules_found := 2, directories_skipped := 1, is_complete := true }
    (handleScanProgressEvent s done).isScanning = false :=
  (handleScanProgressEvent_complete_flag _ _).1 rfl

/-- C7 counterexample: the claim says the displayed progress percentage
never exceeds 100, but the textual percentage of App.tsx lines 1127–1140
is unclamped: with `folders_scanned = 2` and `total_folders_estimated = 1`
it displays 200 %. -/
theorem progressPercentText_exceeds_100 :
    progressPercentText 2 1 = 200 ∧ ¬ progressPercentText 2 1 ≤ 100 := by
  have h : progressPercentText 2 1 = 200 := by
    norm_num [progressPercentText, progressDivisor, Int.floor_eq_iff]
  exact ⟨h, by rw [h]; norm_num⟩

/-- C7 (amended): every percentage display divides by
`Math.max(total_folders_estimated, 1) ≥ 1`, so it is well-defined even for
an estimate of 0, and the progress-bar width is clamped by `Math.min` to
at most 100; the textual percentage is unclamped and can exceed 100 (it
shows 200 % at `folders_scanned = 2`, `total_folders_estimated = 1`,
though small overshoots can still round down to 100). -/
theorem progress_display_guarded (scanned total : Nat) :
    1 ≤ progressDivisor total ∧ progressBarWidth scanned total ≤ 100 := by
  exact ⟨le_max_right total 1, min_le_right _ _⟩

/-- C1: evaluation of the post-deletion filter of `confirmDelete` at the
failing input.  The code computes the failed paths and keeps exactly the
items NOT in that set, so a successfully deleted path stays in the view
and a failed path is removed — the opposite of the claim (and of the
code's own comment "Remove successfully deleted items"). -/
theorem applyDeleteResults_inverted :
    let okItem : ScanItem := ⟨"/a", "/a/node_modules", none⟩
    let failItem : ScanItem := ⟨"/b", "/b/node_modules", none⟩
    applyDeleteResults
      [⟨"/a/node_modules", true, none⟩, ⟨"/b/node_modules", false, some "locked"⟩]
      [okItem, failItem] = [okItem] := by
  decide

/-- C2: the deletion executor refuses every path whose basename is not
exactly `node_modules`: the corresponding `DeleteResult` has
`success = false`, and the filesystem entry at such a path is untouched by
the whole batch (it neither appears in nor disappears from the existing
directories, and never reaches the trash). -/
theorem deleteNodeModules_refuses_non_node_modules (fs : FS) (paths : List String) :
    (∀ r ∈ (deleteNodeModules fs paths).1,
      pathBasename r.path ≠ "node_modules" → r.success = false) ∧
    (∀ p, pathBasename p ≠ "node_modules" →
      ((p ∈ (deleteNodeModules fs paths).2.dirs ↔ p ∈ fs.dirs) ∧
       (p ∈ (deleteNodeModules fs paths).2.trash ↔ p ∈ fs.trash))) := by
  induction paths generalizing fs with
  | nil => exact ⟨by simp [deleteNodeModules], by simp [deleteNodeModules]⟩
  | cons q ps ih =>
    constructor
    · intro r hr hbase
      rw [deleteNodeModules] at hr
      simp only [List.mem_cons] at hr
      rcases hr with hr | hr
      · subst hr
        have hpath : (deleteOnePath fs q).1.path = q := by
          unfold deleteOnePath
          split
          · split <;> rfl
          · rfl
        rw [hpath] at hbase
        simp [deleteOnePath, hbase]
      · exact ((ih _).1) r hr hbase
    · intro p hp
      rw [deleteNodeModules]
      have tail := ((ih (deleteOnePath fs q).2).2) p hp
      have step : (p ∈ (deleteOnePath fs q).2.dirs ↔ p ∈ fs.dirs) ∧
          (p ∈ (deleteOnePath fs q).2.trash ↔ p ∈ fs.trash) := by
        unfold deleteOnePath
        split
        · rename_i hq
          have hne : p ≠ q := fun h => hp (h ▸ hq)
          split
          · constructor
            · simpa using List.mem_erase_of_ne hne
            · simp [hne]
          · simp
        · simp
      exact ⟨tail.1.trans step.1, tail.2.trans step.2⟩

/-- Witness for C2 at a concrete filesystem and batch: the sibling folder
`/home/u/proj` is refused with `success = false` and stays on disk, while
the genuine `node_modules` sibling in the same batch is still processed. -/
theorem deleteNodeModules_refuses_non_node_modules_witness :
    let fs : FS := ⟨["/home/u/proj", "/home/u/proj/node_modules"], []⟩
    let out := deleteNodeModules fs ["/home/u/proj", "/home/u/proj/node_modules"]
    (∀ r ∈ out.1, pathBasename r.path ≠ "node_modules" → r.success = false) ∧
    ("/home/u/proj" ∈ out.2.dirs ↔ "/home/u/proj" ∈ fs.dirs) ∧
    pathBasename "/home/u/proj" ≠ "node_modules" ∧
    (out.1.map (fun r => r.success)) = [false, true] := by
  refine ⟨(deleteNodeModules_refuses_non_node_modules _ _).1, ?_, ?_, ?_⟩
  · exact ((deleteNodeModules_refuses_non_node_modules
      ⟨["/home/u/proj", "/home/u/proj/node_modules"], []⟩
      ["/home/u/proj", "/home/u/proj/node_modules"]).2
      "/home/u/proj" (by decide)).1
  · decide
  · decide

end NodeModulesCleaner
